import Mathlib

/-!
Verification development for the MADEIN comprobante-extraction service
(files main.py and main2.py of the api-imagenes repository).

The Python code is shallowly embedded:

* OCR text is a `List Char`; Python strings are modelled as lists of
  characters (ASCII inputs only, as produced by the OCR engines).
* The `re` regular-expression calls are modelled by a small backtracking
  matcher (`mrun` / `findall` below) whose alternatives are produced in
  Python's backtracking priority order (greedy quantifiers try longer
  repetitions first, lazy quantifiers shorter ones, alternation is
  left-first, scanning is leftmost and non-overlapping).  Each regular
  expression of the source is transcribed node by node into the `RE`
  syntax.  `re.IGNORECASE` is baked into the character predicates.
  Unbounded quantifiers are bounded by the length of the subject string,
  which cannot change the match set because a repetition can never
  consume more characters than the subject contains.
* Python float expressions over small constants, such as
  `int(w * 0.60)` and `min_area > img_area / 20`, are modelled by exact
  rational / integer arithmetic (`60 * w / 100`, `(minArea : Rat) >
  imgArea / 20`).  For the image sizes the service handles the double
  rounding error (about 1e-16 relative) can never cross the comparison
  boundaries involved, so the exact model agrees with the float code.
* Images enter the model through the data the control flow inspects:
  their dimensions and the text an OCR backend would return for a
  region.  OpenCV calls (contour extraction, CLAHE, Otsu, resize) are
  image-to-image transformations whose outputs reach the logic only
  through the contour measurements and the OCR oracle, which are
  therefore inputs of the model.
-/

namespace ApiSpec

/-! ## A Python-style backtracking regex matcher -/

/-- One way a regex can match a prefix of the subject: the consumed
characters, the remaining suffix, and the text captured by group 1 (the
patterns of this code base have at most one capturing group). -/
structure MRes where
  cons : List Char
  rest : List Char
  cap : Option (List Char)
deriving DecidableEq

/-- Combine two successive partial matches (concatenating consumed text,
keeping the first capture that appeared). -/
def mcomb (a b : MRes) : MRes :=
  ⟨a.cons ++ b.cons, b.rest,
    match a.cap with
    | some c => some c
    | none => b.cap⟩

/-- Regex syntax, one node per construct appearing in the source's
patterns.  `rep r lo hi` is the greedy bounded repetition of `r` between
`lo` and `hi` times; `lazyRep` is its lazy variant; `opt` is greedy `?`;
`group` is a capturing group. -/
inductive RE where
  | eps : RE
  | cls : (Char → Bool) → RE
  | seq : RE → RE → RE
  | alt : RE → RE → RE
  | rep : RE → Nat → Nat → RE
  | lazyRep : RE → Nat → Nat → RE
  | opt : RE → RE
  | group : RE → RE

/-- Size measure.  Every recursive call of `mrun` strictly decreases it,
so running `mrun` with fuel larger than the size computes the full
backtracking semantics. -/
def RE.size : RE → Nat
  | .eps => 1
  | .cls _ => 1
  | .seq a b => a.size + b.size + 1
  | .alt a b => a.size + b.size + 1
  | .rep r lo hi => r.size + lo + hi + 1
  | .lazyRep r lo hi => r.size + lo + hi + 1
  | .opt r => r.size + 1
  | .group r => r.size + 1

/-- All ways `r` can match a prefix of `s`, in Python's backtracking
priority order (the head of the list is the match Python's engine
reports).  Fueled so that the kernel can evaluate it; fuel above
`r.size` is never exhausted because each call strictly decreases the
size of its regex argument. -/
def mrun : Nat → RE → List Char → List MRes
  | 0, _, _ => []
  | _ + 1, .eps, s => [⟨[], s, none⟩]
  | _ + 1, .cls _, [] => []
  | _ + 1, .cls p, c :: rest => if p c then [⟨[c], rest, none⟩] else []
  | fuel + 1, .seq a b, s =>
      (mrun fuel a s).flatMap fun ra =>
        (mrun fuel b ra.rest).map fun rb => mcomb ra rb
  | fuel + 1, .alt a b, s => mrun fuel a s ++ mrun fuel b s
  | _ + 1, .rep _ 0 0, s => [⟨[], s, none⟩]
  | fuel + 1, .rep r 0 (hi + 1), s =>
      ((mrun fuel r s).flatMap fun r1 =>
        if r1.cons.isEmpty then []
        else (mrun fuel (.rep r 0 hi) r1.rest).map fun rt => mcomb r1 rt)
        ++ [⟨[], s, none⟩]
  | _ + 1, .rep _ (_ + 1) 0, _ => []
  | fuel + 1, .rep r (lo + 1) (hi + 1), s =>
      (mrun fuel r s).flatMap fun r1 =>
        (mrun fuel (.rep r lo hi) r1.rest).map fun rt => mcomb r1 rt
  | _ + 1, .lazyRep _ 0 0, s => [⟨[], s, none⟩]
  | fuel + 1, .lazyRep r 0 (hi + 1), s =>
      ⟨[], s, none⟩ ::
        (mrun fuel r s).flatMap fun r1 =>
          if r1.cons.isEmpty then []
          else (mrun fuel (.lazyRep r 0 hi) r1.rest).map fun rt => mcomb r1 rt
  | _ + 1, .lazyRep _ (_ + 1) 0, _ => []
  | fuel + 1, .lazyRep r (lo + 1) (hi + 1), s =>
      (mrun fuel r s).flatMap fun r1 =>
        (mrun fuel (.lazyRep r lo hi) r1.rest).map fun rt => mcomb r1 rt
  | fuel + 1, .opt r, s => mrun fuel r s ++ [⟨[], s, none⟩]
  | fuel + 1, .group r, s =>
      (mrun fuel r s).map fun rr => { rr with cap := some rr.cons }

/-- The match Python's engine reports for `r` anchored at the start of
`s` (its highest-priority backtracking alternative), if any. -/
def reMatch (r : RE) (s : List Char) : Option MRes :=
  (mrun (r.size + 1) r s).head?

/-- Scanning worker for `re.findall`: try the regex at the current
position; on success emit the match and continue after it (after one
character if the match was empty, as Python does), on failure advance
one character.  The fuel is one more than the subject length, which the
scan can never exhaust since every step discards at least one character
or ends the scan. -/
def findallAux (r : RE) : Nat → List Char → List (List Char × Option (List Char))
  | 0, _ => []
  | fuel + 1, s =>
    match reMatch r s with
    | some res =>
        if res.cons.isEmpty then
          (res.cons, res.cap) ::
            (match s with
             | [] => []
             | _ :: rest => findallAux r fuel rest)
        else
          (res.cons, res.cap) :: findallAux r fuel res.rest
    | none =>
        match s with
        | [] => []
        | _ :: rest => findallAux r fuel rest

/-- All non-overlapping matches of `r` in `s`, leftmost first, as
(whole match, group-1 capture) pairs. -/
def findall (r : RE) (s : List Char) : List (List Char × Option (List Char)) :=
  findallAux r (s.length + 1) s

/-- `re.findall` for a pattern with one capturing group: the list of
group-1 strings. -/
def findallG (r : RE) (s : List Char) : List (List Char) :=
  (findall r s).map fun m => m.2.getD []

/-- `re.findall` for a pattern without groups: the list of whole-match
strings. -/
def findallW (r : RE) (s : List Char) : List (List Char) :=
  (findall r s).map fun m => m.1

/-! ## Character classes of the source's patterns (IGNORECASE baked in) -/

/-- Python `\s` (ASCII whitespace). -/
def pySpace (c : Char) : Bool :=
  c = ' ' || c = '\t' || c = '\n' || c = '\r' || c = '\x0b' || c = '\x0c'

/-- A literal pattern character under `re.IGNORECASE`. -/
def chrCI (c : Char) : RE := .cls fun x => x.toLower = c.toLower

/-- A literal pattern word under `re.IGNORECASE`. -/
def litCI (s : String) : RE := s.data.foldr (fun c acc => .seq (chrCI c) acc) .eps

/-- `\d`. -/
def digitC : RE := .cls Char.isDigit

/-- `[:\s]`. -/
def colonSpaceC : RE := .cls fun c => c = ':' || pySpace c

/-- `[\s]`. -/
def spaceC : RE := .cls pySpace

/-- `[a-z]` under `re.IGNORECASE` (either case matches). -/
def azC : RE := .cls fun c => 'a' ≤ c.toLower && c.toLower ≤ 'z'

/-- `\$`. -/
def dollarC : RE := .cls fun c => c = '$'

/-- `[,\.]`. -/
def commaDotC : RE := .cls fun c => c = ',' || c = '.'

/-- `[\s,]`. -/
def spaceCommaC : RE := .cls fun c => pySpace c || c = ','

/-- `[\s\.]`. -/
def spaceDotC : RE := .cls fun c => pySpace c || c = '.'

/-- `[\s,\.]`. -/
def spaceCommaDotC : RE := .cls fun c => pySpace c || c = ',' || c = '.'

/-- `[O0]` under `re.IGNORECASE`. -/
def oZeroC : RE := .cls fun c => c.toLower = 'o' || c = '0'

/-- `.` without DOTALL: any character but a newline. -/
def dotAnyC : RE := .cls fun c => !(c = '\n')

/-! ## Python string helpers used by both resolvers -/

/-- Worker for Python `str.split()` (split on whitespace runs, dropping
empty pieces); `acc` holds the current word reversed. -/
def pySplitAux : List Char → List Char → List (List Char)
  | [], acc => if acc.isEmpty then [] else [acc.reverse]
  | c :: rest, acc =>
      if pySpace c then
        if acc.isEmpty then pySplitAux rest []
        else acc.reverse :: pySplitAux rest []
      else pySplitAux rest (c :: acc)

/-- Python `' '.join(texto.split())`: collapse whitespace runs to single
spaces and trim the ends. -/
def normalizeWs (t : List Char) : List Char :=
  List.intercalate [' '] (pySplitAux t [])

/-- Python `str.strip()`: drop leading and trailing whitespace. -/
def pyStrip (t : List Char) : List Char :=
  ((t.dropWhile pySpace).reverse.dropWhile pySpace).reverse

/-! ## buscar_numero_documento (main.py lines 229-255) -/

/-- Pattern `Documento[:\s]*(\d[8..15])` of the cascade; `n` bounds the
unbounded `*` by the subject length. -/
def docPat1 (n : Nat) : RE :=
  .seq (litCI "Documento") (.seq (.rep colonSpaceC 0 n) (.group (.rep digitC 8 15)))

/-- Pattern `ocumento[:\s]*(\d[8..15])`. -/
def docPat2 (n : Nat) : RE :=
  .seq (litCI "ocumento") (.seq (.rep colonSpaceC 0 n) (.group (.rep digitC 8 15)))

/-- Pattern `umento[:\s]*(\d[8..15])`. -/
def docPat3 (n : Nat) : RE :=
  .seq (litCI "umento") (.seq (.rep colonSpaceC 0 n) (.group (.rep digitC 8 15)))

/-- Pattern `Doc[a-z]*[:\s]*(\d[8..15])`. -/
def docPat4 (n : Nat) : RE :=
  .seq (litCI "Doc")
    (.seq (.rep azC 0 n) (.seq (.rep colonSpaceC 0 n) (.group (.rep digitC 8 15))))

/-- Pattern `(\d[10..15])`. -/
def docPat5 : RE := .group (.rep digitC 10 15)

/-- Pattern `(\d[8..9])`. -/
def docPat6 : RE := .group (.rep digitC 8 9)

/-- The prioritized cascade of `buscar_numero_documento`, in source
order. -/
def docPatterns (n : Nat) : List RE :=
  [docPat1 n, docPat2 n, docPat3 n, docPat4 n, docPat5, docPat6]

/-- Python `raw.lstrip('0') or '0'`: strip leading zeros, an all-zero
run collapsing to "0". -/
def stripZerosNum (raw : List Char) : List Char :=
  let s := raw.dropWhile (fun c => c = '0')
  if s.isEmpty then ['0'] else s

/-- The pattern loop of `buscar_numero_documento`: for each pattern in
order, if it has matches take only the first one, zero-strip it, and
return it when the stripped form has at least 6 characters, otherwise
move to the next pattern. -/
def docTry : List RE → List Char → Option (List Char)
  | [], _ => none
  | p :: ps, t =>
      match findallG p t with
      | [] => docTry ps t
      | raw :: _ =>
          let num := stripZerosNum raw
          if 6 ≤ num.length then some num else docTry ps t

/-- `buscar_numero_documento(texto)`: `None` on empty (falsy) input,
otherwise the cascade run on the whitespace-normalized text. -/
def buscar_numero_documento (texto : List Char) : Option (List Char) :=
  if texto.isEmpty then none
  else
    let t := normalizeWs texto
    docTry (docPatterns t.length) t

/-! ## buscar_valor_neto (main2.py lines 113-173) -/

/-- `[\s]*` bounded by the subject length. -/
def spaceStar (n : Nat) : RE := .rep spaceC 0 n

/-- `\$?`. -/
def dollarOpt : RE := .opt dollarC

/-- Pattern 1 of the NETO cascade (index 0), the literal-value pattern
`NETO[\s]*\$?[\s]*16[\s,]*220[\s,]*167[\s\.]*00` (no capturing group). -/
def netoPat0 (n : Nat) : RE :=
  .seq (litCI "NETO") (.seq (spaceStar n) (.seq dollarOpt (.seq (spaceStar n)
    (.seq (litCI "16") (.seq (.rep spaceCommaC 0 n) (.seq (litCI "220")
      (.seq (.rep spaceCommaC 0 n) (.seq (litCI "167")
        (.seq (.rep spaceDotC 0 n) (litCI "00"))))))))))

/-- The grouped tail `([0-9][1..3][\s,\.]*[0-9][3][\s,\.]*[0-9][3][\s,\.]*[0-9][2])`
of pattern index 1. -/
def netoBody1 (n : Nat) : RE :=
  .group (.seq (.rep digitC 1 3) (.seq (.rep spaceCommaDotC 0 n)
    (.seq (.rep digitC 3 3) (.seq (.rep spaceCommaDotC 0 n)
      (.seq (.rep digitC 3 3) (.seq (.rep spaceCommaDotC 0 n) (.rep digitC 2 2)))))))

/-- Pattern index 1: `NETO[\s]*\$?[\s]*` followed by `netoBody1`. -/
def netoPat1 (n : Nat) : RE :=
  .seq (litCI "NETO") (.seq (spaceStar n) (.seq dollarOpt (.seq (spaceStar n) (netoBody1 n))))

/-- Pattern index 2: `([0-9][1..3][\s,]*[0-9][3][\s,]*[0-9][3][\s\.]*[0-9][2])`. -/
def netoPat2 (n : Nat) : RE :=
  .group (.seq (.rep digitC 1 3) (.seq (.rep spaceCommaC 0 n)
    (.seq (.rep digitC 3 3) (.seq (.rep spaceCommaC 0 n)
      (.seq (.rep digitC 3 3) (.seq (.rep spaceDotC 0 n) (.rep digitC 2 2)))))))

/-- The grouped standard money tail
`([0-9][1..3](?:[,\.][0-9][3])*[,\.][0-9][2])` shared by pattern
indices 3, 4, 5 and 8. -/
def moneyBody (n : Nat) : RE :=
  .group (.seq (.rep digitC 1 3)
    (.seq (.rep (.seq commaDotC (.rep digitC 3 3)) 0 n)
      (.seq commaDotC (.rep digitC 2 2))))

/-- Pattern index 3: `NETO[\s]*\$?[\s]*` followed by `moneyBody`. -/
def netoPat3 (n : Nat) : RE :=
  .seq (litCI "NETO") (.seq (spaceStar n) (.seq dollarOpt (.seq (spaceStar n) (moneyBody n))))

/-- Pattern index 4:
`(?:SUBTOTAL|IVA|TOTAL|NETO)[\s]*:[\s]*\$?[\s]*` followed by `moneyBody`. -/
def netoPat4 (n : Nat) : RE :=
  .seq (.alt (litCI "SUBTOTAL") (.alt (litCI "IVA") (.alt (litCI "TOTAL") (litCI "NETO"))))
    (.seq (spaceStar n) (.seq (.cls fun c => c = ':')
      (.seq (spaceStar n) (.seq dollarOpt (.seq (spaceStar n) (moneyBody n))))))

/-- Pattern index 5: `NET[O0]?[\s]*\$?[\s]*` followed by `moneyBody`. -/
def netoPat5 (n : Nat) : RE :=
  .seq (litCI "NET") (.seq (.opt oZeroC)
    (.seq (spaceStar n) (.seq dollarOpt (.seq (spaceStar n) (moneyBody n)))))

/-- Pattern index 6: `([0-9][2..3][,\.][0-9][3][,\.][0-9][3][,\.][0-9][2])`. -/
def netoPat6 : RE :=
  .group (.seq (.rep digitC 2 3) (.seq commaDotC
    (.seq (.rep digitC 3 3) (.seq commaDotC
      (.seq (.rep digitC 3 3) (.seq commaDotC (.rep digitC 2 2)))))))

/-- Pattern index 7: `NETO[\s]+([0-9][6..][,\.][0-9][2])`, the unbounded
repetitions bounded by the subject length. -/
def netoPat7 (n : Nat) : RE :=
  .seq (litCI "NETO") (.seq (.rep spaceC 1 n)
    (.group (.seq (.rep digitC 6 (6 + n)) (.seq commaDotC (.rep digitC 2 2)))))

/-- Pattern index 8: `NET[O0]?.*?` followed by `moneyBody` (lazy dot-star). -/
def netoPat8 (n : Nat) : RE :=
  .seq (litCI "NET") (.seq (.opt oZeroC) (.seq (.lazyRep dotAnyC 0 n) (moneyBody n)))

/-- Patterns with capturing groups of the NETO cascade, indices 1 to 8
in source order (index 0, the groupless literal pattern, is handled
separately like in the source). -/
def netoPatterns (n : Nat) : List RE :=
  [netoPat1 n, netoPat2 n, netoPat3 n, netoPat4 n, netoPat5 n, netoPat6, netoPat7 n,
    netoPat8 n]

/-- `re.sub(r'\s+', '', valor)`: removing every whitespace run is
removing every whitespace character. -/
def stripAllWs (v : List Char) : List Char := v.filter fun c => !pySpace c

/-- `re.sub(r'([0-9])([,\.])', r'\1\2', valor_limpio)`: the replacement
template reproduces exactly the matched text, so this substitution is
the identity on every string. -/
def subDigitSep (v : List Char) : List Char := v

/-- The inner `for match in matches` loop of `buscar_valor_neto`: strip
each candidate, remove whitespace, apply the identity substitution, and
return the first candidate whose digit count (commas and periods
removed) is at least 6. -/
def netoTryMatches : List (List Char) → Option (List Char)
  | [] => none
  | m :: ms =>
      let valor := pyStrip m
      let valor_limpio := subDigitSep (stripAllWs valor)
      let valor_numerico := valor_limpio.filter fun c => !(c = ',' || c = '.')
      if 6 ≤ valor_numerico.length then some valor_limpio else netoTryMatches ms

/-- The outer pattern loop over the grouped NETO patterns: a pattern
whose candidates all fail the digit-count filter falls through to the
next pattern. -/
def netoTryPatterns : List RE → List Char → Option (List Char)
  | [], _ => none
  | p :: ps, t =>
      match netoTryMatches (findallG p t) with
      | some v => some v
      | none => netoTryPatterns ps t

/-- `buscar_valor_neto(texto)`: `None` on empty input; after whitespace
normalization, a nonempty match list for the groupless literal pattern
returns the hard-coded string "16,220,167.00"; otherwise the grouped
patterns are tried in order. -/
def buscar_valor_neto (texto : List Char) : Option (List Char) :=
  if texto.isEmpty then none
  else
    let t := normalizeWs texto
    if !(findallW (netoPat0 t.length) t).isEmpty then some ("16,220,167.00".data)
    else netoTryPatterns (netoPatterns t.length) t

/-! ## extract_documento_with_ocr / extract_documento_from_image
(main.py lines 257-321)

The image content reaches this logic only through the text an OCR call
returns, so the model takes an oracle `readText : Nat → List Char`
giving the text recognized for the (preprocessed) region under
configuration index `i`. -/

/-- The active OCR backend (`OCR_ENGINE` global of main.py). -/
inductive OcrEngine where
  | ocrNone : OcrEngine
  | pytesseract : OcrEngine
  | easyocr : OcrEngine
deriving DecidableEq

/-- The four pytesseract configurations tried in order
(`['--psm 6', '--psm 7', '--psm 8', '--psm 13']`), as indices into the
OCR oracle. -/
def tesseractConfigIdx : List Nat := [0, 1, 2, 3]

/-- The pytesseract configuration loop: run the document search on each
configuration's text, returning the first hit. -/
def tryConfigs (readText : Nat → List Char) : List Nat → Option (List Char)
  | [] => none
  | i :: is =>
      match buscar_numero_documento (readText i) with
      | some doc => some doc
      | none => tryConfigs readText is

/-- `extract_documento_with_ocr`: pytesseract tries its four
configurations in order; easyocr makes one call (its `results` joined
with spaces are the oracle's text at index 0); with no engine the
function returns `None`. -/
def extract_documento_with_ocr (engine : OcrEngine) (readText : Nat → List Char) :
    Option (List Char) :=
  match engine with
  | .pytesseract => tryConfigs readText tesseractConfigIdx
  | .easyocr => buscar_numero_documento (readText 0)
  | .ocrNone => none

/-- `int(w * 0.60)` of the ROI computation, modelled exactly. -/
def roiX0 (w : Nat) : Nat := 60 * w / 100

/-- `int(h * 0.35)`. -/
def roiY0 (h : Nat) : Nat := 35 * h / 100

/-- `int(h * 0.70)`. -/
def roiY1 (h : Nat) : Nat := 70 * h / 100

/-- Row count of the crop's ROI (`roi = gray[y0:y1, x0:x1]`). -/
def roiRows (h : Nat) : Nat := roiY1 h - roiY0 h

/-- Column count of the crop's ROI. -/
def roiCols (w : Nat) : Nat := w - roiX0 w

/-- The upscale factor `300 // roi.shape[1] + 1` applied when the ROI is
narrower than 300 px. -/
def roiScale (cols : Nat) : Nat := 300 / cols + 1

/-- Step 2 of `extract_documento_from_image`: `if roi.shape[1] < 300:`
resize both dimensions by `roiScale` (the resize triggers on the column
count only). -/
def roiResize (rows cols : Nat) : Nat × Nat :=
  if cols < 300 then (rows * roiScale cols, cols * roiScale cols)
  else (rows, cols)

/-- Decimal digits of `n` (used by the `02d` paddings). -/
def natDigits (n : Nat) : List Char := Nat.toDigits 10 n

/-- Python `f"[n]:02d"` formatting for a natural number: zero-padded to
width two. -/
def pad2 (n : Nat) : List Char :=
  if n < 10 then '0' :: natDigits n else natDigits n

/-- The deterministic fallback identifier
`f"PAG[page]:02d_COMP[comp]:02d"`. -/
def fallbackId (page comp : Nat) : List Char :=
  "PAG".data ++ pad2 page ++ "_COMP".data ++ pad2 comp

/-- `extract_documento_from_image` on a grayscale crop of `h` rows and
`w` columns: compute the ROI; an empty ROI returns `None`; otherwise the
ROI is resized / contrast-enhanced / binarized (image-to-image steps
that only feed the OCR oracle) and OCR is attempted, falling back to the
synthetic page/region identifier when it yields nothing. -/
def extract_documento_from_image (engine : OcrEngine) (readText : Nat → List Char)
    (h w page comp : Nat) : Option (List Char) :=
  if roiRows h * roiCols w = 0 then none
  else
    match extract_documento_with_ocr engine readText with
    | some doc => some doc
    | none => some (fallbackId page comp)

/-! ## detect_comprobantes_in_image (main.py lines 325-437)

The OpenCV segmentation (blur, adaptive threshold, closing,
`findContours`) produces a list of contours; the code then inspects each
contour only through `cv2.contourArea(cnt)` and the bounding rectangle
`cv2.boundingRect(approx)` of its polygon approximation.  Those
measurements are the model's input. -/

/-- The per-contour measurements the filter inspects: `area` is
`cv2.contourArea(cnt)` (a float, modelled as a rational) and `(x, y, w,
h)` is `cv2.boundingRect(cv2.approxPolyDP(cnt, 0.02 * peri, True))`. -/
structure Contour where
  area : ℚ
  x : Nat
  y : Nat
  w : Nat
  h : Nat
deriving DecidableEq

/-- A candidate rectangle as appended to `rects`. -/
structure Rect where
  x : Nat
  y : Nat
  w : Nat
  h : Nat
deriving DecidableEq

/-- The adaptive area correction: if `min_area > img_area / 20` (float
division, modelled exactly over the rationals) the effective minimum
area becomes `max(5000, img_area // 50)`, else `min_area` is kept. -/
def adaptive_min_area (imgArea minArea : Nat) : Nat :=
  if (minArea : ℚ) > (imgArea : ℚ) / 20 then max 5000 (imgArea / 50) else minArea

/-- The contour filter: the `continue` guard `area < adaptive_min_area`
followed by the acceptance condition
`0.3 <= aspect_ratio <= 3.0 and w > 50 and h > 50 and area > adaptive_min_area`
with `aspect_ratio = w / h if h > 0 else 0`. -/
def contour_ok (amin : Nat) (c : Contour) : Bool :=
  if c.area < (amin : ℚ) then false
  else
    let ratio : ℚ := if 0 < c.h then (c.w : ℚ) / (c.h : ℚ) else 0
    decide ((3 : ℚ) / 10 ≤ ratio) && decide (ratio ≤ (3 : ℚ)) &&
      decide (50 < c.w) && decide (50 < c.h) && decide ((amin : ℚ) < c.area)

/-- The sort key comparison `rects.sort(key=lambda r: (r[1], r[0]))`:
lexicographic on (y, x). -/
def rectLe (a b : Rect) : Prop :=
  a.y < b.y ∨ (a.y = b.y ∧ a.x ≤ b.x)

instance : DecidableRel rectLe := fun a b =>
  inferInstanceAs (Decidable (a.y < b.y ∨ (a.y = b.y ∧ a.x ≤ b.x)))

instance : IsTotal Rect rectLe where
  total a b := by
    rcases Nat.lt_trichotomy a.y b.y with h | h | h
    · exact Or.inl (Or.inl h)
    · rcases Nat.le_total a.x b.x with hx | hx
      · exact Or.inl (Or.inr ⟨h, hx⟩)
      · exact Or.inr (Or.inr ⟨h.symm, hx⟩)
    · exact Or.inr (Or.inl h)

instance : IsTrans Rect rectLe where
  trans a b c hab hbc := by
    rcases hab with h | ⟨he, hx⟩ <;> rcases hbc with h' | ⟨he', hx'⟩
    · exact Or.inl (h.trans h')
    · exact Or.inl (he' ▸ h)
    · exact Or.inl (he ▸ h')
    · exact Or.inr ⟨he.trans he', hx.trans hx'⟩

/-- One emitted comprobante record (its `roi_image` crop is carried by
its dimensions, which are all the downstream logic reads). -/
structure Comprobante where
  id : Nat
  documento_id : Option (List Char)
  x : Nat
  y : Nat
  w : Nat
  h : Nat
  area : Nat
deriving DecidableEq

/-- The `for i, (x,y,w,h) in enumerate(rects, start=1)` loop: number the
sorted rectangles starting at `i`, crop each (the crop has `h` rows and
`w` columns) and resolve its document id.  `readTextOf i` is the OCR
oracle for the `i`-th crop. -/
def number_from (engine : OcrEngine) (readTextOf : Nat → Nat → List Char) (page : Nat) :
    Nat → List Rect → List Comprobante
  | _, [] => []
  | i, r :: rs =>
      { id := i,
        documento_id := extract_documento_from_image engine (readTextOf i) r.h r.w page i,
        x := r.x, y := r.y, w := r.w, h := r.h,
        area := r.w * r.h } :: number_from engine readTextOf page (i + 1) rs

/-- `detect_comprobantes_in_image` on a page of `imgH` rows and `imgW`
columns whose segmentation produced `contours`: compute the effective
minimum area, filter the contours, collect their bounding rectangles,
sort them by (y, x) (Python's sort and insertion sort are both stable,
so they agree on this total preorder), and number the results from 1. -/
def detect_comprobantes_in_image (imgH imgW : Nat) (contours : List Contour)
    (minArea : Nat) (engine : OcrEngine) (readTextOf : Nat → Nat → List Char)
    (page : Nat) : List Comprobante :=
  let amin := adaptive_min_area (imgH * imgW) minArea
  let rects := (contours.filter (contour_ok amin)).map fun c => Rect.mk c.x c.y c.w c.h
  number_from engine readTextOf page 1 (List.insertionSort rectLe rects)

/-! ## Page rasterization scales -/

/-- The fixed scale passed to `page.render(scale=2.0)` for every page of
a PDF in `run_image_extractor` (main.py line 494), as a function of the
page index to state that it is the same factor for every page. -/
def page_render_scale (_page : Nat) : ℚ := 2

/-- The scale `300/72` used by `process_pdf_for_neto` (main2.py line
344), for contrast. -/
def neto_render_scale : ℚ := 300 / 72

/-! ## Structural predicates on regexes (for output-shape lemmas) -/

/-- Every character-consuming node of the regex accepts only decimal
digits. -/
def DigitOnly : RE → Prop
  | .eps => True
  | .cls p => ∀ c, p c = true → c.isDigit = true
  | .seq a b => DigitOnly a ∧ DigitOnly b
  | .alt a b => DigitOnly a ∧ DigitOnly b
  | .rep r _ _ => DigitOnly r
  | .lazyRep r _ _ => DigitOnly r
  | .opt r => DigitOnly r
  | .group r => DigitOnly r

/-- Every capturing group of the regex has a digit-only body. -/
def CapDig : RE → Prop
  | .eps => True
  | .cls _ => True
  | .seq a b => CapDig a ∧ CapDig b
  | .alt a b => CapDig a ∧ CapDig b
  | .rep r _ _ => CapDig r
  | .lazyRep r _ _ => CapDig r
  | .opt r => CapDig r
  | .group r => DigitOnly r

/-- The acceptance loop of `buscar_numero_documento` as the amended
claim words it: for each pattern in priority order, look only at that
pattern's first match; return its zero-stripped form when that form has
length at least 6, otherwise move to the next pattern (later matches of
the same pattern are never examined). -/
def docCascadeFirstOnly : List RE → List Char → Option (List Char)
  | [], _ => none
  | p :: ps, t =>
      match (findallG p t).head? with
      | none => docCascadeFirstOnly ps t
      | some raw =>
          if 6 ≤ (stripZerosNum raw).length then some (stripZerosNum raw)
          else docCascadeFirstOnly ps t

/-- Matches of a digit-only regex consume only digit characters. -/
theorem mrun_cons_digits : ∀ (fuel : Nat) (r : RE) (s : List Char), DigitOnly r →
    ∀ res ∈ mrun fuel r s, ∀ c ∈ res.cons, c.isDigit = true := by
  intro fuel
  induction fuel with
  | zero => intro r s _ res hres; simp [mrun] at hres
  | succ n ih =>
    intro r s hr res hres c hc
    cases r with
    | eps =>
        simp [mrun] at hres
        subst hres; simp at hc
    | cls p =>
        cases s with
        | nil => simp [mrun] at hres
        | cons d rest =>
            by_cases hpd : p d
            · simp [mrun, hpd] at hres
              subst hres
              simp at hc
              exact hc ▸ hr d hpd
            · simp [mrun, hpd] at hres
    | seq a b =>
        obtain ⟨hra, hrb⟩ := hr
        simp only [mrun, List.mem_flatMap, List.mem_map] at hres
        obtain ⟨ra, hma, rb, hmb, rfl⟩ := hres
        simp only [mcomb, List.mem_append] at hc
        rcases hc with hc | hc
        · exact ih a s hra ra hma c hc
        · exact ih b ra.rest hrb rb hmb c hc
    | alt a b =>
        obtain ⟨hra, hrb⟩ := hr
        simp only [mrun, List.mem_append] at hres
        rcases hres with hres | hres
        · exact ih a s hra res hres c hc
        · exact ih b s hrb res hres c hc
    | rep r' lo hi =>
        have hr' : DigitOnly r' := hr
        cases lo with
        | zero =>
            cases hi with
            | zero =>
                simp [mrun] at hres
                subst hres; simp at hc
            | succ m =>
                simp only [mrun, List.mem_append, List.mem_flatMap] at hres
                rcases hres with ⟨r1, h1, hres⟩ | hres
                · by_cases he : r1.cons.isEmpty
                  · simp [he] at hres
                  · simp only [he, if_false, List.mem_map, Bool.false_eq_true] at hres
                    obtain ⟨rt, hrt, rfl⟩ := hres
                    simp only [mcomb, List.mem_append] at hc
                    rcases hc with hc | hc
                    · exact ih r' s hr' r1 h1 c hc
                    · exact ih (.rep r' 0 m) r1.rest hr' rt hrt c hc
                · simp at hres
                  subst hres; simp at hc
        | succ k =>
            cases hi with
            | zero => simp [mrun] at hres
            | succ m =>
                simp only [mrun, List.mem_flatMap, List.mem_map] at hres
                obtain ⟨r1, h1, rt, hrt, rfl⟩ := hres
                simp only [mcomb, List.mem_append] at hc
                rcases hc with hc | hc
                · exact ih r' s hr' r1 h1 c hc
                · exact ih (.rep r' k m) r1.rest hr' rt hrt c hc
    | lazyRep r' lo hi =>
        have hr' : DigitOnly r' := hr
        cases lo with
        | zero =>
            cases hi with
            | zero =>
                simp [mrun] at hres
                subst hres; simp at hc
            | succ m =>
                simp only [mrun, List.mem_cons, List.mem_flatMap] at hres
                rcases hres with hres | ⟨r1, h1, hres⟩
                · subst hres; simp at hc
                · by_cases he : r1.cons.isEmpty
                  · simp [he] at hres
                  · simp only [he, if_false, List.mem_map, Bool.false_eq_true] at hres
                    obtain ⟨rt, hrt, rfl⟩ := hres
                    simp only [mcomb, List.mem_append] at hc
                    rcases hc with hc | hc
                    · exact ih r' s hr' r1 h1 c hc
                    · exact ih (.lazyRep r' 0 m) r1.rest hr' rt hrt c hc
        | succ k =>
            cases hi with
            | zero => simp [mrun] at hres
            | succ m =>
                simp only [mrun, List.mem_flatMap, List.mem_map] at hres
                obtain ⟨r1, h1, rt, hrt, rfl⟩ := hres
                simp only [mcomb, List.mem_append] at hc
                rcases hc with hc | hc
                · exact ih r' s hr' r1 h1 c hc
                · exact ih (.lazyRep r' k m) r1.rest hr' rt hrt c hc
    | opt r' =>
        have hr' : DigitOnly r' := hr
        simp only [mrun, List.mem_append] at hres
        rcases hres with hres | hres
        · exact ih r' s hr' res hres c hc
        · simp at hres
          subst hres; simp at hc
    | group r' =>
        have hr' : DigitOnly r' := hr
        simp only [mrun, List.mem_map] at hres
        obtain ⟨rr, hrr, rfl⟩ := hres
        simp at hc
        exact ih r' s hr' rr hrr c hc



/-- Matches of a regex all of whose groups are digit-only carry only
digit characters in their captures. -/
theorem mrun_cap_digits : ∀ (fuel : Nat) (r : RE) (s : List Char), CapDig r →
    ∀ res ∈ mrun fuel r s, ∀ cs, res.cap = some cs → ∀ c ∈ cs, c.isDigit = true := by
  intro fuel
  induction fuel with
  | zero => intro r s _ res hres; simp [mrun] at hres
  | succ n ih =>
    intro r s hr res hres cs hcap c hc
    cases r with
    | eps =>
        simp [mrun] at hres
        subst hres; simp at hcap
    | cls p =>
        cases s with
        | nil => simp [mrun] at hres
        | cons d rest =>
            by_cases hpd : p d
            · simp [mrun, hpd] at hres
              subst hres; simp at hcap
            · simp [mrun, hpd] at hres
    | seq a b =>
        obtain ⟨hra, hrb⟩ := hr
        simp only [mrun, List.mem_flatMap, List.mem_map] at hres
        obtain ⟨ra, hma, rb, hmb, rfl⟩ := hres
        simp only [mcomb] at hcap
        cases hca : ra.cap with
        | some csa =>
            rw [hca] at hcap
            simp at hcap
            exact ih a s hra ra hma cs (by rw [hca, hcap]) c hc
        | none =>
            rw [hca] at hcap
            simp at hcap
            exact ih b ra.rest hrb rb hmb cs hcap c hc
    | alt a b =>
        obtain ⟨hra, hrb⟩ := hr
        simp only [mrun, List.mem_append] at hres
        rcases hres with hres | hres
        · exact ih a s hra res hres cs hcap c hc
        · exact ih b s hrb res hres cs hcap c hc
    | rep r' lo hi =>
        have hr' : CapDig r' := hr
        cases lo with
        | zero =>
            cases hi with
            | zero =>
                simp [mrun] at hres
                subst hres; simp at hcap
            | succ m =>
                simp only [mrun, List.mem_append, List.mem_flatMap] at hres
                rcases hres with ⟨r1, h1, hres⟩ | hres
                · by_cases he : r1.cons.isEmpty
                  · simp [he] at hres
                  · simp only [he, if_false, List.mem_map, Bool.false_eq_true] at hres
                    obtain ⟨rt, hrt, rfl⟩ := hres
                    simp only [mcomb] at hcap
                    cases hca : r1.cap with
                    | some cs1 =>
                        rw [hca] at hcap
                        simp at hcap
                        exact ih r' s hr' r1 h1 cs (by rw [hca, hcap]) c hc
                    | none =>
                        rw [hca] at hcap
                        simp at hcap
                        exact ih (.rep r' 0 m) r1.rest hr' rt hrt cs hcap c hc
                · simp at hres
                  subst hres; simp at hcap
        | succ k =>
            cases hi with
            | zero => simp [mrun] at hres
            | succ m =>
                simp only [mrun, List.mem_flatMap, List.mem_map] at hres
                obtain ⟨r1, h1, rt, hrt, rfl⟩ := hres
                simp only [mcomb] at hcap
                cases hca : r1.cap with
                | some cs1 =>
                    rw [hca] at hcap
                    simp at hcap
                    exact ih r' s hr' r1 h1 cs (by rw [hca, hcap]) c hc
                | none =>
                    rw [hca] at hcap
                    simp at hcap
                    exact ih (.rep r' k m) r1.rest hr' rt hrt cs hcap c hc
    | lazyRep r' lo hi =>
        have hr' : CapDig r' := hr
        cases lo with
        | zero =>
            cases hi with
            | zero =>
                simp [mrun] at hres
                subst hres; simp at hcap
            | succ m =>
                simp only [mrun, List.mem_cons, List.mem_flatMap] at hres
                rcases hres with hres | ⟨r1, h1, hres⟩
                · subst hres; simp at hcap
                · by_cases he : r1.cons.isEmpty
                  · simp [he] at hres
                  · simp only [he, if_false, List.mem_map, Bool.false_eq_true] at hres
                    obtain ⟨rt, hrt, rfl⟩ := hres
                    simp only [mcomb] at hcap
                    cases hca : r1.cap with
                    | some cs1 =>
                        rw [hca] at hcap
                        simp at hcap
                        exact ih r' s hr' r1 h1 cs (by rw [hca, hcap]) c hc
                    | none =>
                        rw [hca] at hcap
                        simp at hcap
                        exact ih (.lazyRep r' 0 m) r1.rest hr' rt hrt cs hcap c hc
        | succ k =>
            cases hi with
            | zero => simp [mrun] at hres
            | succ m =>
                simp only [mrun, List.mem_flatMap, List.mem_map] at hres
                obtain ⟨r1, h1, rt, hrt, rfl⟩ := hres
                simp only [mcomb] at hcap
                cases hca : r1.cap with
                | some cs1 =>
                    rw [hca] at hcap
                    simp at hcap
                    exact ih r' s hr' r1 h1 cs (by rw [hca, hcap]) c hc
                | none =>
                    rw [hca] at hcap
                    simp at hcap
                    exact ih (.lazyRep r' k m) r1.rest hr' rt hrt cs hcap c hc
    | opt r' =>
        have hr' : CapDig r' := hr
        simp only [mrun, List.mem_append] at hres
        rcases hres with hres | hres
        · exact ih r' s hr' res hres cs hcap c hc
        · simp at hres
          subst hres; simp at hcap
    | group r' =>
        have hr' : DigitOnly r' := hr
        simp only [mrun, List.mem_map] at hres
        obtain ⟨rr, hrr, rfl⟩ := hres
        simp at hcap
        subst hcap
        exact mrun_cons_digits n r' s hr' rr hrr c hc

/-- Every group-1 string produced by `findall` for a regex whose groups
are digit-only consists of digit characters. -/
theorem findallAux_cap_digits (r : RE) (hr : CapDig r) :
    ∀ (fuel : Nat) (s : List Char), ∀ m ∈ findallAux r fuel s,
      ∀ cs, m.2 = some cs → ∀ c ∈ cs, c.isDigit = true := by
  intro fuel
  induction fuel with
  | zero => intro s m hm; simp [findallAux] at hm
  | succ n ih =>
    intro s m hm cs hcap c hc
    simp only [findallAux] at hm
    cases hmt : reMatch r s with
    | some res =>
        rw [hmt] at hm
        simp only [] at hm
        have hresmem : res ∈ mrun (r.size + 1) r s :=
          List.mem_of_mem_head? (by rw [← reMatch, hmt]; rfl)
        by_cases he : res.cons.isEmpty
        · simp only [he, if_true, List.mem_cons] at hm
          rcases hm with hm | hm
          · subst hm
            exact mrun_cap_digits (r.size + 1) r s hr res hresmem cs hcap c hc
          · cases s with
            | nil => simp at hm
            | cons d rest => exact ih rest m hm cs hcap c hc
        · simp only [he, if_false, List.mem_cons, Bool.false_eq_true] at hm
          rcases hm with hm | hm
          · subst hm
            exact mrun_cap_digits (r.size + 1) r s hr res hresmem cs hcap c hc
          · exact ih res.rest m hm cs hcap c hc
    | none =>
        rw [hmt] at hm
        simp only [] at hm
        cases s with
        | nil => simp at hm
        | cons d rest => exact ih rest m hm cs hcap c hc

/-- Every string in `findallG r s` for a regex with digit-only groups is
either empty (no group participated) or all digits. -/
theorem findallG_digits (r : RE) (hr : CapDig r) (s : List Char) :
    ∀ g ∈ findallG r s, ∀ c ∈ g, c.isDigit = true := by
  intro g hg c hc
  simp only [findallG, findall, List.mem_map] at hg
  obtain ⟨m, hm, rfl⟩ := hg
  cases hcap : m.2 with
  | none => simp [hcap] at hc
  | some cs =>
      have := findallAux_cap_digits r hr (s.length + 1) s m hm cs hcap
      simp only [hcap, Option.getD_some] at hc
      exact this c hc

/-- A case-insensitive literal contains no groups. -/
theorem capDig_foldr_lit (l : List Char) :
    CapDig (l.foldr (fun c acc => .seq (chrCI c) acc) .eps) := by
  induction l with
  | nil => trivial
  | cons c cs ih => exact ⟨trivial, ih⟩

/-- The digit class is digit-only. -/
theorem digitOnly_digitC : DigitOnly digitC := fun _ h => h

/-- The bounded digit repetitions used as group bodies are digit-only. -/
theorem digitOnly_rep_digit (lo hi : Nat) : DigitOnly (.rep digitC lo hi) :=
  digitOnly_digitC

/-- Every group of every pattern in the document-number cascade has a
digit-only body. -/
theorem capDig_docPatterns (n : Nat) : ∀ p ∈ docPatterns n, CapDig p := by
  intro p hp
  simp only [docPatterns, List.mem_cons, List.not_mem_nil, or_false] at hp
  rcases hp with rfl | rfl | rfl | rfl | rfl | rfl
  · exact ⟨capDig_foldr_lit _, trivial, digitOnly_rep_digit 8 15⟩
  · exact ⟨capDig_foldr_lit _, trivial, digitOnly_rep_digit 8 15⟩
  · exact ⟨capDig_foldr_lit _, trivial, digitOnly_rep_digit 8 15⟩
  · exact ⟨capDig_foldr_lit _, trivial, trivial, digitOnly_rep_digit 8 15⟩
  · exact digitOnly_rep_digit 10 15
  · exact digitOnly_rep_digit 8 9

/-- Membership survives `dropWhile`. -/
theorem mem_of_mem_dropWhile {α : Type} (p : α → Bool) (l : List α) (a : α)
    (h : a ∈ l.dropWhile p) : a ∈ l := by
  induction l with
  | nil => simp [List.dropWhile] at h
  | cons b bs ih =>
      rw [List.dropWhile] at h
      by_cases hb : p b
      · simp only [hb, if_true] at h
        exact List.mem_cons_of_mem b (ih h)
      · simp only [hb, if_false, Bool.false_eq_true] at h
        exact h

/-- The head surviving `dropWhile` fails the predicate. -/
theorem head_dropWhile_false {α : Type} (p : α → Bool) (l : List α) (b : α) (bs : List α)
    (h : l.dropWhile p = b :: bs) : p b = false := by
  induction l with
  | nil => simp [List.dropWhile] at h
  | cons a as ih =>
      rw [List.dropWhile] at h
      by_cases ha : p a
      · simp only [ha, if_true] at h
        exact ih h
      · simp only [ha, if_false, Bool.false_eq_true] at h
        cases h
        exact Bool.eq_false_iff.mpr ha

/-- A zero-stripped digit run is still a digit run. -/
theorem stripZerosNum_digits (raw : List Char) (hd : ∀ c ∈ raw, c.isDigit = true) :
    ∀ c ∈ stripZerosNum raw, c.isDigit = true := by
  intro c hc
  unfold stripZerosNum at hc
  by_cases he : (raw.dropWhile (fun c => c = '0')).isEmpty
  · simp only [he, if_true] at hc
    simp at hc
    subst hc
    decide
  · simp only [he, if_false, Bool.false_eq_true] at hc
    exact hd c (mem_of_mem_dropWhile _ raw c hc)

/-- A zero-stripped string of length at least 6 does not begin with a
zero. -/
theorem stripZerosNum_head (raw : List Char) (hlen : 6 ≤ (stripZerosNum raw).length) :
    (stripZerosNum raw).head? ≠ some '0' := by
  unfold stripZerosNum at hlen ⊢
  by_cases he : (raw.dropWhile (fun c => c = '0')).isEmpty
  · simp [he] at hlen
  · simp only [he, if_false, Bool.false_eq_true] at hlen ⊢
    cases hdw : raw.dropWhile (fun c => c = '0') with
    | nil =>
        rw [hdw] at hlen
        simp at hlen
    | cons b bs =>
        have hb := head_dropWhile_false (fun c => c = '0') raw b bs hdw
        simp only [List.head?_cons, ne_eq, Option.some.injEq]
        intro hb0
        rw [hb0] at hb
        simp at hb

/-- Characterization of a successful run of the document cascade's
pattern loop: some pattern's first match, zero-stripped, passed the
length filter. -/
theorem docTry_eq_some (ps : List RE) (t s : List Char) (h : docTry ps t = some s) :
    ∃ p ∈ ps, ∃ raw rest, findallG p t = raw :: rest ∧ s = stripZerosNum raw ∧
      6 ≤ s.length := by
  induction ps with
  | nil => simp [docTry] at h
  | cons p ps ih =>
      rw [docTry] at h
      cases hf : findallG p t with
      | nil =>
          rw [hf] at h
          obtain ⟨q, hq, rest⟩ := ih h
          exact ⟨q, List.mem_cons_of_mem p hq, rest⟩
      | cons raw more =>
          rw [hf] at h
          by_cases hlen : 6 ≤ (stripZerosNum raw).length
          · simp only [hlen, if_true] at h
            cases h
            exact ⟨p, List.mem_cons_self p ps, raw, more, hf, rfl, hlen⟩
          · simp only [hlen, if_false] at h
            obtain ⟨q, hq, rest⟩ := ih h
            exact ⟨q, List.mem_cons_of_mem p hq, rest⟩

/-- C10: whenever `buscar_numero_documento` returns a string, that
string is all digits, has length at least 6, and does not start with
the character '0'. -/
theorem C10_doc_output_shape (texto s : List Char)
    (h : buscar_numero_documento texto = some s) :
    (∀ c ∈ s, c.isDigit = true) ∧ 6 ≤ s.length ∧ s.head? ≠ some '0' := by
  unfold buscar_numero_documento at h
  by_cases he : texto.isEmpty
  · simp [he] at h
  · simp only [he, if_false, Bool.false_eq_true] at h
    obtain ⟨p, hp, raw, rest, hf, hs, hlen⟩ :=
      docTry_eq_some (docPatterns (normalizeWs texto).length) (normalizeWs texto) s h
    have hrawd : ∀ c ∈ raw, c.isDigit = true := by
      intro c hc
      have hraw_mem : raw ∈ findallG p (normalizeWs texto) := by
        rw [hf]; exact List.mem_cons_self raw rest
      exact findallG_digits p (capDig_docPatterns (normalizeWs texto).length p hp)
        (normalizeWs texto) raw hraw_mem c hc
    subst hs
    exact ⟨stripZerosNum_digits raw hrawd, hlen, stripZerosNum_head raw hlen⟩

/-- Witness for C10 at the OCR text "Documento: 000000801363627". -/
theorem C10_witness :
    (∀ c ∈ "801363627".data, c.isDigit = true) ∧ 6 ≤ "801363627".data.length ∧
      "801363627".data.head? ≠ some '0' :=
  C10_doc_output_shape "Documento: 000000801363627".data "801363627".data (by decide)


/-- The source's pattern loop coincides with the first-match-only
cascade: each pattern contributes exactly its first match. -/
theorem docTry_eq_firstOnly (ps : List RE) (t : List Char) :
    docTry ps t = docCascadeFirstOnly ps t := by
  induction ps with
  | nil => rfl
  | cons p ps ih =>
      rw [docTry, docCascadeFirstOnly]
      cases hf : findallG p t with
      | nil => simpa using ih
      | cons raw more => simp [ih]

/-- C4 (amended): the document-id cascade tries the patterns in priority
order but inspects only the first match of each pattern, returning its
zero-stripped form when that has length at least 6 and otherwise moving
to the next pattern; on "Documento: 000000801363627" it returns
"801363627". -/
theorem C4_cascade_amended :
    (∀ texto : List Char,
        buscar_numero_documento texto =
          if texto.isEmpty then none
          else docCascadeFirstOnly (docPatterns (normalizeWs texto).length)
            (normalizeWs texto)) ∧
      buscar_numero_documento "Documento: 000000801363627".data =
        some "801363627".data := by
  refine ⟨fun texto => ?_, by decide⟩
  unfold buscar_numero_documento
  by_cases he : texto.isEmpty
  · simp [he]
  · simp only [he, if_false, Bool.false_eq_true]
    exact docTry_eq_firstOnly _ _

/-- C4 counterexample: on
"Documento: 00000001 Documento: 12345678" the code returns `None`
although the first pattern has a later match ("12345678") that
satisfies the claimed acceptance rule (zero-stripped length at least
6); the code never examines matches after the first one of a
pattern. -/
theorem C4_counterexample :
    buscar_numero_documento "Documento: 00000001 Documento: 12345678".data = none ∧
      normalizeWs "Documento: 00000001 Documento: 12345678".data =
        "Documento: 00000001 Documento: 12345678".data ∧
      "12345678".data ∈
        findallG (docPat1 "Documento: 00000001 Documento: 12345678".data.length)
          "Documento: 00000001 Documento: 12345678".data ∧
      6 ≤ (stripZerosNum "12345678".data).length := by
  refine ⟨by decide, by decide, by decide, by decide⟩


/-- C1 counterexample: the code performs no locale normalization.  On
the raw string "16.220.167,00" it returns the matched text with
periods and comma intact (not "16220167.00"); on "4,688.07" and
"536800" no pattern of the cascade matches at all, so nothing is
returned (not "4688.07" / "536800.00"). -/
theorem C1_counterexample :
    buscar_valor_neto "16.220.167,00".data = some "16.220.167,00".data ∧
      some "16.220.167,00".data ≠ some "16220167.00".data ∧
      buscar_valor_neto "4,688.07".data = none ∧
      buscar_valor_neto "536800".data = none := by
  refine ⟨by decide, by decide, by decide, by decide⟩

/-- C1 (amended): the monetary-value search cleans a matched candidate
only by stripping whitespace, never resolving the comma/period locale:
"16.220.167,00" is returned verbatim as "16.220.167,00", while
"4,688.07" (no NETO keyword and fewer than the 9 digits the keyword-free
patterns require) and "536800" (no separator at all) match no pattern
and yield no value. -/
theorem C1_money_normalization_amended :
    buscar_valor_neto "16.220.167,00".data = some "16.220.167,00".data ∧
      buscar_valor_neto "4,688.07".data = none ∧
      buscar_valor_neto "536800".data = none ∧
      (∀ m : List Char, netoTryMatches [m] =
        if 6 ≤ ((stripAllWs (pyStrip m)).filter fun c => !(c = ',' || c = '.')).length
        then some (stripAllWs (pyStrip m)) else none) := by
  refine ⟨by decide, by decide, by decide, fun m => ?_⟩
  simp [netoTryMatches, subDigitSep]


/-- The contour filter accepts exactly the contours with admissible
size, aspect ratio and strictly supra-threshold area. -/
theorem contour_ok_iff (amin : Nat) (c : Contour) :
    contour_ok amin c = true ↔
      (50 < c.w ∧ 50 < c.h ∧ (3 : ℚ) / 10 ≤ (c.w : ℚ) / (c.h : ℚ) ∧
        (c.w : ℚ) / (c.h : ℚ) ≤ 3 ∧ (amin : ℚ) < c.area) := by
  unfold contour_ok
  by_cases hlt : c.area < (amin : ℚ)
  · simp only [hlt, if_true]
    constructor
    · intro h; simp at h
    · rintro ⟨_, _, _, _, hgt⟩
      exact (lt_asymm hgt hlt).elim
  · simp only [hlt, if_false]
    by_cases hh : 0 < c.h
    · simp only [hh, if_true, Bool.and_eq_true, decide_eq_true_eq]
      constructor
      · rintro ⟨⟨⟨⟨h1, h2⟩, h3⟩, h4⟩, h5⟩
        exact ⟨h3, h4, h1, h2, h5⟩
      · rintro ⟨h3, h4, h1, h2, h5⟩
        exact ⟨⟨⟨⟨h1, h2⟩, h3⟩, h4⟩, h5⟩
    · simp only [hh, if_false, Bool.and_eq_true, decide_eq_true_eq]
      constructor
      · rintro ⟨⟨⟨⟨h1, _⟩, _⟩, _⟩, _⟩
        norm_num at h1
      · rintro ⟨_, h50, _⟩
        exact absurd (Nat.lt_trans (by norm_num) h50) hh

/-- The numbering loop assigns consecutive ids starting at `i`. -/
theorem number_from_map_id (e : OcrEngine) (rt : Nat → Nat → List Char) (page : Nat) :
    ∀ (l : List Rect) (i : Nat),
      (number_from e rt page i l).map (fun comp => comp.id) = List.range' i l.length := by
  intro l
  induction l with
  | nil => intro i; rfl
  | cons r rs ih =>
      intro i
      simp only [number_from, List.map_cons, List.length_cons, List.range'_succ, ih]

/-- The numbering loop preserves length. -/
theorem number_from_length (e : OcrEngine) (rt : Nat → Nat → List Char) (page : Nat) :
    ∀ (l : List Rect) (i : Nat), (number_from e rt page i l).length = l.length := by
  intro l
  induction l with
  | nil => intro i; rfl
  | cons r rs ih => intro i; simp only [number_from, List.length_cons, ih]

/-- The numbering loop preserves the (y, x) key sequence. -/
theorem number_from_map_yx (e : OcrEngine) (rt : Nat → Nat → List Char) (page : Nat) :
    ∀ (l : List Rect) (i : Nat),
      (number_from e rt page i l).map (fun comp => (comp.y, comp.x)) =
        l.map fun r => (r.y, r.x) := by
  intro l
  induction l with
  | nil => intro i; rfl
  | cons r rs ih => intro i; simp only [number_from, List.map_cons, ih]

/-- Every numbered record's rectangle comes from the input list. -/
theorem number_from_mem (e : OcrEngine) (rt : Nat → Nat → List Char) (page : Nat) :
    ∀ (l : List Rect) (i : Nat) (comp : Comprobante), comp ∈ number_from e rt page i l →
      ∃ r ∈ l, comp.x = r.x ∧ comp.y = r.y ∧ comp.w = r.w ∧ comp.h = r.h := by
  intro l
  induction l with
  | nil => intro i comp h; simp [number_from] at h
  | cons r rs ih =>
      intro i comp h
      rw [number_from] at h
      rcases List.mem_cons.mp h with h | h
      · subst h
        exact ⟨r, List.mem_cons_self r rs, rfl, rfl, rfl, rfl⟩
      · obtain ⟨r', hr', hf⟩ := ih (i + 1) comp h
        exact ⟨r', List.mem_cons_of_mem r hr', hf⟩

/-- Every input rectangle reappears in some numbered record. -/
theorem number_from_mem_rev (e : OcrEngine) (rt : Nat → Nat → List Char) (page : Nat) :
    ∀ (l : List Rect) (i : Nat) (r : Rect), r ∈ l →
      ∃ comp ∈ number_from e rt page i l,
        comp.x = r.x ∧ comp.y = r.y ∧ comp.w = r.w ∧ comp.h = r.h := by
  intro l
  induction l with
  | nil => intro i r h; simp at h
  | cons r0 rs ih =>
      intro i r h
      rcases List.mem_cons.mp h with h | h
      · subst h
        rw [number_from]
        exact ⟨_, List.mem_cons_self _ _, rfl, rfl, rfl, rfl⟩
      · obtain ⟨comp, hcomp, hf⟩ := ih (i + 1) r h
        refine ⟨comp, ?_, hf⟩
        rw [number_from]
        exact List.mem_cons_of_mem _ hcomp

/-- C9: the emitted records are numbered 1..n in order, and their
(y, x) keys are in row-major (top-to-bottom, then left-to-right)
order; the numbering restarts at 1 on every call, hence on every
page. -/
theorem C9_reading_order_ids (imgH imgW : Nat) (contours : List Contour) (minArea : Nat)
    (engine : OcrEngine) (readTextOf : Nat → Nat → List Char) (page : Nat) :
    ((detect_comprobantes_in_image imgH imgW contours minArea engine readTextOf page).map
        (fun comp => comp.id) =
      List.range' 1 (detect_comprobantes_in_image imgH imgW contours minArea engine
        readTextOf page).length) ∧
    List.Sorted (fun a b : Nat × Nat => a.1 < b.1 ∨ (a.1 = b.1 ∧ a.2 ≤ b.2))
      ((detect_comprobantes_in_image imgH imgW contours minArea engine readTextOf page).map
        (fun comp => (comp.y, comp.x))) := by
  unfold detect_comprobantes_in_image
  constructor
  · rw [number_from_map_id, number_from_length]
  · rw [number_from_map_yx]
    have hs := List.sorted_insertionSort rectLe
      ((contours.filter (contour_ok (adaptive_min_area (imgH * imgW) minArea))).map
        fun c => Rect.mk c.x c.y c.w c.h)
    exact List.Pairwise.map _ (fun a b hab => hab) hs

/-- C2 (amended): under the guarantee that every contour's bounding box
lies inside the page (which `cv2.findContours` provides), every emitted
record's box lies inside the page, is wider and taller than 50 px, has
aspect ratio within [0.3, 3.0], and stems from a contour whose area is
STRICTLY greater than the effective minimum area; conversely every
contour meeting those strict bounds is emitted.  (The claim's
non-strict "area ≥ effective minimum" fails: a contour with area
exactly equal to the threshold is rejected, see the counterexample.) -/
theorem C2_region_filters_amended (imgH imgW minArea : Nat) (contours : List Contour)
    (engine : OcrEngine) (readTextOf : Nat → Nat → List Char) (page : Nat)
    (hb : ∀ c ∈ contours, c.x + c.w ≤ imgW ∧ c.y + c.h ≤ imgH) :
    (∀ comp ∈ detect_comprobantes_in_image imgH imgW contours minArea engine readTextOf page,
        comp.x + comp.w ≤ imgW ∧ comp.y + comp.h ≤ imgH ∧ 50 < comp.w ∧ 50 < comp.h ∧
          (3 : ℚ) / 10 ≤ (comp.w : ℚ) / (comp.h : ℚ) ∧ (comp.w : ℚ) / (comp.h : ℚ) ≤ 3 ∧
          ∃ c ∈ contours, c.x = comp.x ∧ c.y = comp.y ∧ c.w = comp.w ∧ c.h = comp.h ∧
            ((adaptive_min_area (imgH * imgW) minArea : ℚ) < c.area)) ∧
    (∀ c ∈ contours, 50 < c.w → 50 < c.h → (3 : ℚ) / 10 ≤ (c.w : ℚ) / (c.h : ℚ) →
        (c.w : ℚ) / (c.h : ℚ) ≤ 3 →
        ((adaptive_min_area (imgH * imgW) minArea : ℚ) < c.area) →
        ∃ comp ∈ detect_comprobantes_in_image imgH imgW contours minArea engine readTextOf
            page, comp.x = c.x ∧ comp.y = c.y ∧ comp.w = c.w ∧ comp.h = c.h) := by
  constructor
  · intro comp hcomp
    unfold detect_comprobantes_in_image at hcomp
    obtain ⟨r, hr, hx, hy, hw, hh⟩ := number_from_mem engine readTextOf page _ 1 comp hcomp
    rw [(List.perm_insertionSort rectLe _).mem_iff] at hr
    obtain ⟨c, hcf, hcr⟩ := List.mem_map.mp hr
    obtain ⟨hcmem, hok⟩ := List.mem_filter.mp hcf
    obtain ⟨h50w, h50h, hr1, hr2, harea⟩ := (contour_ok_iff _ c).mp hok
    have hcx : c.x = comp.x := by rw [hx, ← hcr]
    have hcy : c.y = comp.y := by rw [hy, ← hcr]
    have hcw : c.w = comp.w := by rw [hw, ← hcr]
    have hch : c.h = comp.h := by rw [hh, ← hcr]
    obtain ⟨hbw, hbh⟩ := hb c hcmem
    refine ⟨?_, ?_, ?_, ?_, ?_, ?_, c, hcmem, hcx, hcy, hcw, hch, harea⟩
    · rw [← hcx, ← hcw]; exact hbw
    · rw [← hcy, ← hch]; exact hbh
    · rw [← hcw]; exact h50w
    · rw [← hch]; exact h50h
    · rw [← hcw, ← hch]; exact hr1
    · rw [← hcw, ← hch]; exact hr2
  · intro c hcmem h50w h50h hr1 hr2 harea
    unfold detect_comprobantes_in_image
    have hok : contour_ok (adaptive_min_area (imgH * imgW) minArea) c = true :=
      (contour_ok_iff _ c).mpr ⟨h50w, h50h, hr1, hr2, harea⟩
    have hrect : Rect.mk c.x c.y c.w c.h ∈
        (contours.filter (contour_ok (adaptive_min_area (imgH * imgW) minArea))).map
          (fun c => Rect.mk c.x c.y c.w c.h) :=
      List.mem_map.mpr ⟨c, List.mem_filter.mpr ⟨hcmem, hok⟩, rfl⟩
    rw [← (List.perm_insertionSort rectLe _).mem_iff] at hrect
    obtain ⟨comp, hcomp, hf⟩ :=
      number_from_mem_rev engine readTextOf page _ 1 (Rect.mk c.x c.y c.w c.h) hrect
    exact ⟨comp, hcomp, hf⟩

/-- Witness for C2 on a concrete page: a single in-bounds contour that
passes every filter yields a record satisfying all the amended
invariants. -/
theorem C2_witness :
    (∀ c ∈ [Contour.mk (6000 : ℚ) 5 5 100 80], c.x + c.w ≤ 1000 ∧ c.y + c.h ≤ 1000) ∧
    (∀ comp ∈ detect_comprobantes_in_image 1000 1000 [Contour.mk (6000 : ℚ) 5 5 100 80]
        5000 .ocrNone (fun _ _ => []) 1,
        comp.x + comp.w ≤ 1000 ∧ comp.y + comp.h ≤ 1000 ∧ 50 < comp.w ∧ 50 < comp.h ∧
          (3 : ℚ) / 10 ≤ (comp.w : ℚ) / (comp.h : ℚ) ∧ (comp.w : ℚ) / (comp.h : ℚ) ≤ 3 ∧
          ∃ c ∈ [Contour.mk (6000 : ℚ) 5 5 100 80], c.x = comp.x ∧ c.y = comp.y ∧
            c.w = comp.w ∧ c.h = comp.h ∧
            ((adaptive_min_area (1000 * 1000) 5000 : ℚ) < c.area)) :=
  ⟨by decide,
    (C2_region_filters_amended 1000 1000 5000 [Contour.mk (6000 : ℚ) 5 5 100 80]
      .ocrNone (fun _ _ => []) 1 (by decide)).1⟩

/-- C2 counterexample: on a 1000x1000 page with caller minArea 5000 the
effective minimum area is 5000, and a 60x60 contour of area exactly
5000 satisfies every condition of the claim (area ≥ effective minimum,
sides > 50, ratio 1.0, box inside the page) yet the detector emits
nothing, because the code requires the area to be STRICTLY greater
than the threshold. -/
theorem C2_counterexample :
    adaptive_min_area (1000 * 1000) 5000 = 5000 ∧
    ((adaptive_min_area (1000 * 1000) 5000 : ℚ) ≤ (5000 : ℚ) ∧ 50 < 60 ∧
      (3 : ℚ) / 10 ≤ (60 : ℚ) / (60 : ℚ) ∧ (60 : ℚ) / (60 : ℚ) ≤ 3 ∧
      10 + 60 ≤ 1000) ∧
    detect_comprobantes_in_image 1000 1000 [Contour.mk (5000 : ℚ) 10 10 60 60] 5000
      .ocrNone (fun _ _ => []) 1 = [] := by
  refine ⟨by unfold adaptive_min_area; norm_num, ?_, ?_⟩
  · refine ⟨?_, by norm_num, by norm_num, by norm_num, by norm_num⟩
    unfold adaptive_min_area
    norm_num
  · norm_num [detect_comprobantes_in_image, adaptive_min_area, contour_ok,
      List.insertionSort, number_from]

/-- C3: the adaptive area correction replaces an over-large caller
minimum (more than 5 percent of the page area, i.e. 20*minArea >
pageArea) by max(5000, pageArea / 50) and keeps it unchanged otherwise;
in particular a 100000 px² page with caller minimum 50000 yields an
effective minimum of 5000. -/
theorem C3_adaptive_area (pageArea minArea : Nat) :
    (pageArea < 20 * minArea →
      adaptive_min_area pageArea minArea = max 5000 (pageArea / 50)) ∧
    (20 * minArea ≤ pageArea → adaptive_min_area pageArea minArea = minArea) ∧
    adaptive_min_area 100000 50000 = 5000 := by
  refine ⟨?_, ?_, by unfold adaptive_min_area; norm_num⟩
  · intro h
    unfold adaptive_min_area
    have hcond : (minArea : ℚ) > (pageArea : ℚ) / 20 := by
      rw [gt_iff_lt, div_lt_iff₀ (by norm_num : (0 : ℚ) < 20)]
      have h2 : (pageArea : ℚ) < ((20 * minArea : Nat) : ℚ) := by exact_mod_cast h
      push_cast at h2
      linarith
    rw [if_pos hcond]
  · intro h
    unfold adaptive_min_area
    have hcond : ¬((minArea : ℚ) > (pageArea : ℚ) / 20) := by
      rw [gt_iff_lt, not_lt, le_div_iff₀ (by norm_num : (0 : ℚ) < 20)]
      have h2 : ((20 * minArea : Nat) : ℚ) ≤ (pageArea : ℚ) := by exact_mod_cast h
      push_cast at h2
      linarith
    rw [if_neg hcond]


/-- Witness for C3 at the spec's own example page. -/
theorem C3_witness : adaptive_min_area 100000 50000 = max 5000 (100000 / 50) :=
  (C3_adaptive_area 100000 50000).1 (by norm_num)


/-- `buscar_numero_documento` finds nothing in empty text. -/
theorem buscar_numero_documento_nil : buscar_numero_documento [] = none := rfl

/-- C5: on a crop whose ROI is non-empty, when no OCR backend is
configured or every attempted OCR configuration recognizes empty text,
document-id resolution returns exactly the synthetic identifier
PAG(page, two digits zero-padded)_COMP(region, two digits
zero-padded). -/
theorem C5_ocr_empty_fallback (engine : OcrEngine) (readText : Nat → List Char)
    (h w page comp : Nat) (hroi : roiRows h * roiCols w ≠ 0)
    (hocr : engine = .ocrNone ∨ ∀ i, i < 4 → readText i = []) :
    extract_documento_from_image engine readText h w page comp =
      some (fallbackId page comp) := by
  unfold extract_documento_from_image
  rw [if_neg hroi]
  have hnone : extract_documento_with_ocr engine readText = none := by
    rcases hocr with rfl | hempty
    · rfl
    · cases engine with
      | ocrNone => rfl
      | easyocr =>
          show buscar_numero_documento (readText 0) = none
          rw [hempty 0 (by norm_num)]
          exact buscar_numero_documento_nil
      | pytesseract =>
          show tryConfigs readText tesseractConfigIdx = none
          unfold tesseractConfigIdx
          rw [tryConfigs, hempty 0 (by norm_num), buscar_numero_documento_nil]
          rw [tryConfigs, hempty 1 (by norm_num), buscar_numero_documento_nil]
          rw [tryConfigs, hempty 2 (by norm_num), buscar_numero_documento_nil]
          rw [tryConfigs, hempty 3 (by norm_num), buscar_numero_documento_nil]
          rfl
  rw [hnone]

/-- Witness for C5: a 100x100 crop (ROI of 35 rows and 40 columns) on
page 3, region 7, with a pytesseract backend whose every configuration
reads empty text, yields exactly "PAG03_COMP07". -/
theorem C5_witness :
    roiRows 100 * roiCols 100 ≠ 0 ∧
      extract_documento_from_image .pytesseract (fun _ => []) 100 100 3 7 =
        some "PAG03_COMP07".data :=
  ⟨by decide,
    (C5_ocr_empty_fallback .pytesseract (fun _ => []) 100 100 3 7 (by decide)
        (Or.inr fun _ _ => rfl)).trans (by decide)⟩

/-- C6 (evaluation at the failing input): a 1x1 crop has an ROI with
zero rows, and `extract_documento_from_image` then returns `None`
instead of the fallback identifier "PAG01_COMP01" promised by its own
docstring ("Devuelve el número o, si falla, un ID de fallback") and by
the claim — even when OCR would have produced a valid document
number. -/
theorem C6_empty_roi_returns_none :
    extract_documento_from_image .pytesseract
        (fun _ => "Documento: 123456789".data) 1 1 1 1 = none ∧
      fallbackId 1 1 = "PAG01_COMP01".data ∧
      (none : Option (List Char)) ≠ some (fallbackId 1 1) := by
  refine ⟨by decide, by decide, by decide⟩

/-- C7 counterexample: for an ROI of width 150 the code's scale factor
is 300 // 150 + 1 = 3, although the least integer k with k*150 ≥ 300 is
2 (so the claimed "smallest integer" rule fails whenever the width
divides 300); and an ROI of 400 columns and 100 rows, whose narrower
dimension 100 is below 300, is not resized at all, because the code
tests only the width. -/
theorem C7_counterexample :
    (roiScale 150 = 3 ∧ 300 ≤ 2 * 150 ∧ (2 : Nat) < 3) ∧
      (100 < 300 ∧ roiResize 100 400 = (100, 400)) := by
  refine ⟨⟨by decide, by decide, by decide⟩, by decide, by decide⟩

/-- C7 (amended): when the ROI's WIDTH is below 300 px (the height is
never tested), both dimensions are scaled by 300 // width + 1; the new
width then strictly exceeds 300, and the factor is the least integer k
with k*width ≥ 300 exactly when the width does not divide 300 (when it
does, the factor overshoots the least one by 1); an ROI at least 300 px
wide is never resized. -/
theorem C7_resize_amended (rows cols : Nat) :
    (0 < cols → cols < 300 →
      roiResize rows cols = (rows * (300 / cols + 1), cols * (300 / cols + 1)) ∧
        300 < cols * (300 / cols + 1) ∧
        (¬ (cols ∣ 300) → ∀ k, 300 ≤ k * cols → 300 / cols + 1 ≤ k)) ∧
    (300 ≤ cols → roiResize rows cols = (rows, cols)) := by
  constructor
  · intro hpos hlt
    refine ⟨by rw [roiResize, if_pos hlt]; rfl, ?_, ?_⟩
    · have hmod : 300 % cols < cols := Nat.mod_lt _ hpos
      have hdm : cols * (300 / cols) + 300 % cols = 300 := Nat.div_add_mod 300 cols
      have : cols * (300 / cols + 1) = cols * (300 / cols) + cols := by ring
      omega
    · intro hndvd k hk
      by_contra hcon
      push_neg at hcon
      have hk' : k ≤ 300 / cols := by omega
      have h1 : k * cols ≤ (300 / cols) * cols := Nat.mul_le_mul_right cols hk'
      have h2 : cols * (300 / cols) + 300 % cols = 300 := Nat.div_add_mod 300 cols
      have hmodpos : 0 < 300 % cols :=
        Nat.pos_of_ne_zero fun h0 => hndvd (Nat.dvd_of_mod_eq_zero h0)
      have h3 : (300 / cols) * cols = cols * (300 / cols) := Nat.mul_comm _ _
      omega
  · intro hge
    rw [roiResize, if_neg (by omega)]


/-- Witness for C7 at an ROI of 50 rows and 140 columns (140 does not
divide 300): the scale is 300 // 140 + 1 = 3, the scaled width exceeds
300, and 3 is minimal. -/
theorem C7_witness :
    roiResize 50 140 = (50 * (300 / 140 + 1), 140 * (300 / 140 + 1)) ∧
      300 < 140 * (300 / 140 + 1) ∧ 300 / 140 + 1 ≤ 3 :=
  ⟨((C7_resize_amended 50 140).1 (by decide) (by decide)).1,
    ((C7_resize_amended 50 140).1 (by decide) (by decide)).2.1,
    ((C7_resize_amended 50 140).1 (by decide) (by decide)).2.2 (by decide) 3 (by decide)⟩

/-- C8 (evaluation at the failing code): `run_image_extractor` renders
every PDF page with the same fixed factor, but that factor is 2.0 (a
144-DPI equivalent), not the 300-DPI factor 300/72 that the claim, the
module header ("DPI=300"), the unused `dpi` parameter of /process-pdf
and the repository's verification script all state; the NETO extractor
of main2.py is the one that uses 300/72. -/
theorem C8_render_scale :
    page_render_scale 0 = 2 ∧ (∀ p q : Nat, page_render_scale p = page_render_scale q) ∧
      neto_render_scale = 300 / 72 ∧ page_render_scale 0 ≠ neto_render_scale := by
  refine ⟨rfl, fun p q => rfl, rfl, ?_⟩
  unfold page_render_scale neto_render_scale
  norm_num


/-- Soundness invariant of the matcher: every reported alternative
splits the subject into its consumed prefix and remaining suffix. -/
theorem mrun_cons_append : ∀ (fuel : Nat) (r : RE) (s : List Char),
    ∀ res ∈ mrun fuel r s, res.cons ++ res.rest = s := by
  intro fuel
  induction fuel with
  | zero => intro r s res hres; simp [mrun] at hres
  | succ n ih =>
    intro r s res hres
    cases r with
    | eps =>
        simp [mrun] at hres
        subst hres; rfl
    | cls p =>
        cases s with
        | nil => simp [mrun] at hres
        | cons d rest =>
            by_cases hpd : p d
            · simp [mrun, hpd] at hres
              subst hres; rfl
            · simp [mrun, hpd] at hres
    | seq a b =>
        simp only [mrun, List.mem_flatMap, List.mem_map] at hres
        obtain ⟨ra, hma, rb, hmb, rfl⟩ := hres
        show (ra.cons ++ rb.cons) ++ rb.rest = s
        rw [List.append_assoc, ih b ra.rest rb hmb, ih a s ra hma]
    | alt a b =>
        simp only [mrun, List.mem_append] at hres
        rcases hres with hres | hres
        · exact ih a s res hres
        · exact ih b s res hres
    | rep r' lo hi =>
        cases lo with
        | zero =>
            cases hi with
            | zero =>
                simp [mrun] at hres
                subst hres; rfl
            | succ m =>
                simp only [mrun, List.mem_append, List.mem_flatMap] at hres
                rcases hres with ⟨r1, h1, hres⟩ | hres
                · by_cases he : r1.cons.isEmpty
                  · simp [he] at hres
                  · simp only [he, if_false, List.mem_map, Bool.false_eq_true] at hres
                    obtain ⟨rt, hrt, rfl⟩ := hres
                    show (r1.cons ++ rt.cons) ++ rt.rest = s
                    rw [List.append_assoc, ih (.rep r' 0 m) r1.rest rt hrt, ih r' s r1 h1]
                · simp at hres
                  subst hres; rfl
        | succ k =>
            cases hi with
            | zero => simp [mrun] at hres
            | succ m =>
                simp only [mrun, List.mem_flatMap, List.mem_map] at hres
                obtain ⟨r1, h1, rt, hrt, rfl⟩ := hres
                show (r1.cons ++ rt.cons) ++ rt.rest = s
                rw [List.append_assoc, ih (.rep r' k m) r1.rest rt hrt, ih r' s r1 h1]
    | lazyRep r' lo hi =>
        cases lo with
        | zero =>
            cases hi with
            | zero =>
                simp [mrun] at hres
                subst hres; rfl
            | succ m =>
                simp only [mrun, List.mem_cons, List.mem_flatMap] at hres
                rcases hres with hres | ⟨r1, h1, hres⟩
                · subst hres; rfl
                · by_cases he : r1.cons.isEmpty
                  · simp [he] at hres
                  · simp only [he, if_false, List.mem_map, Bool.false_eq_true] at hres
                    obtain ⟨rt, hrt, rfl⟩ := hres
                    show (r1.cons ++ rt.cons) ++ rt.rest = s
                    rw [List.append_assoc, ih (.lazyRep r' 0 m) r1.rest rt hrt,
                      ih r' s r1 h1]
        | succ k =>
            cases hi with
            | zero => simp [mrun] at hres
            | succ m =>
                simp only [mrun, List.mem_flatMap, List.mem_map] at hres
                obtain ⟨r1, h1, rt, hrt, rfl⟩ := hres
                show (r1.cons ++ rt.cons) ++ rt.rest = s
                rw [List.append_assoc, ih (.lazyRep r' k m) r1.rest rt hrt, ih r' s r1 h1]
    | opt r' =>
        simp only [mrun, List.mem_append] at hres
        rcases hres with hres | hres
        · exact ih r' s res hres
        · simp at hres
          subst hres; rfl
    | group r' =>
        simp only [mrun, List.mem_map] at hres
        obtain ⟨rr, hrr, rfl⟩ := hres
        exact ih r' s rr hrr


/-- The matcher's result does not depend on the fuel once the fuel
exceeds the regex size: every recursive call strictly decreases the
size measure, so `reMatch`'s fuel of `r.size + 1` computes the full
backtracking semantics. -/
theorem mrun_fuel_high : ∀ (f g : Nat) (r : RE) (s : List Char),
    r.size < f → r.size < g → mrun f r s = mrun g r s := by
  intro f
  induction f with
  | zero => intro g r s hf _; exact absurd hf (Nat.not_lt_zero _)
  | succ n ih =>
    intro g r s hf hg
    cases g with
    | zero => exact absurd hg (Nat.not_lt_zero _)
    | succ m =>
      cases r with
      | eps => simp [mrun]
      | cls p => cases s <;> simp [mrun]
      | seq a b =>
          have ha : a.size < n ∧ a.size < m := by simp [RE.size] at hf hg; omega
          have hb : b.size < n ∧ b.size < m := by simp [RE.size] at hf hg; omega
          simp only [mrun]
          rw [ih m a s ha.1 ha.2]
          exact congrArg (List.flatMap (mrun m a s))
            (funext fun ra => by rw [ih m b ra.rest hb.1 hb.2])
      | alt a b =>
          have ha : a.size < n ∧ a.size < m := by simp [RE.size] at hf hg; omega
          have hb : b.size < n ∧ b.size < m := by simp [RE.size] at hf hg; omega
          simp only [mrun]
          rw [ih m a s ha.1 ha.2, ih m b s hb.1 hb.2]
      | rep r' lo hi =>
          cases lo with
          | zero =>
              cases hi with
              | zero => simp [mrun]
              | succ mm =>
                  have h1 : r'.size < n ∧ r'.size < m := by
                    simp [RE.size] at hf hg; omega
                  have h2 : (RE.rep r' 0 mm).size < n ∧ (RE.rep r' 0 mm).size < m := by
                    simp [RE.size] at hf hg ⊢; omega
                  simp only [mrun]
                  rw [ih m r' s h1.1 h1.2]
                  refine congrArg (fun l => l ++ [(⟨[], s, none⟩ : MRes)]) ?_
                  refine congrArg (List.flatMap (mrun m r' s)) (funext fun r1 => ?_)
                  by_cases he : r1.cons.isEmpty
                  · simp [he]
                  · simp only [he, if_false, Bool.false_eq_true]
                    rw [ih m (.rep r' 0 mm) r1.rest h2.1 h2.2]
          | succ k =>
              cases hi with
              | zero => simp [mrun]
              | succ mm =>
                  have h1 : r'.size < n ∧ r'.size < m := by
                    simp [RE.size] at hf hg; omega
                  have h2 : (RE.rep r' k mm).size < n ∧ (RE.rep r' k mm).size < m := by
                    simp [RE.size] at hf hg ⊢; omega
                  simp only [mrun]
                  rw [ih m r' s h1.1 h1.2]
                  exact congrArg (List.flatMap (mrun m r' s))
                    (funext fun r1 => by rw [ih m (.rep r' k mm) r1.rest h2.1 h2.2])
      | lazyRep r' lo hi =>
          cases lo with
          | zero =>
              cases hi with
              | zero => simp [mrun]
              | succ mm =>
                  have h1 : r'.size < n ∧ r'.size < m := by
                    simp [RE.size] at hf hg; omega
                  have h2 : (RE.lazyRep r' 0 mm).size < n ∧ (RE.lazyRep r' 0 mm).size < m := by
                    simp [RE.size] at hf hg ⊢; omega
                  simp only [mrun]
                  rw [ih m r' s h1.1 h1.2]
                  refine congrArg (fun l => (⟨[], s, none⟩ : MRes) :: l) ?_
                  refine congrArg (List.flatMap (mrun m r' s)) (funext fun r1 => ?_)
                  by_cases he : r1.cons.isEmpty
                  · simp [he]
                  · simp only [he, if_false, Bool.false_eq_true]
                    rw [ih m (.lazyRep r' 0 mm) r1.rest h2.1 h2.2]
          | succ k =>
              cases hi with
              | zero => simp [mrun]
              | succ mm =>
                  have h1 : r'.size < n ∧ r'.size < m := by
                    simp [RE.size] at hf hg; omega
                  have h2 : (RE.lazyRep r' k mm).size < n ∧ (RE.lazyRep r' k mm).size < m := by
                    simp [RE.size] at hf hg ⊢; omega
                  simp only [mrun]
                  rw [ih m r' s h1.1 h1.2]
                  exact congrArg (List.flatMap (mrun m r' s))
                    (funext fun r1 => by rw [ih m (.lazyRep r' k mm) r1.rest h2.1 h2.2])
      | opt r' =>
          have h1 : r'.size < n ∧ r'.size < m := by simp [RE.size] at hf hg; omega
          simp only [mrun]
          rw [ih m r' s h1.1 h1.2]
      | group r' =>
          have h1 : r'.size < n ∧ r'.size < m := by simp [RE.size] at hf hg; omega
          simp only [mrun]
          rw [ih m r' s h1.1 h1.2]

end ApiSpec
